import Mathlib

/-!
Shallow embedding of the deterministic discrete-event network-link simulator
(`t/simulator.c`): the packet / node data model, the bottleneck queue
(`net_queue_forward`, `net_queue_next_run_at`, `net_queue_run`,
`net_queue_init`), the endpoint scheduling query
(`net_endpoint_next_run_at`) and the global scheduler (`run_nodes`).

Conventions of the embedding:
* C `double` simulated-time values are embedded as exact rationals `ℚ`;
  the C value `INFINITY` is embedded as `none` in `Option ℚ` (so `some t`
  is a finite time).
* The intrusive singly-linked packet list (`queue.first` / `queue.append_at`)
  is embedded as a Lean `List`, head = `queue.first`, append at tail.
* The `printf` calls of the queue are observable events and are returned as
  values (`LogEvent`).
* Global mutable state (`now` plus the heap the nodes mutate) is threaded
  explicitly: a node's `run` takes the clock and the global state.
-/

namespace Simulator

/-- The result of comparing a possibly-infinite time with a finite time:
`at_ ≤ t` (used by the scheduler's due check, `INFINITY ≤ t` is false). -/
def tleB (at_ : Option ℚ) (t : ℚ) : Bool :=
  match at_ with
  | none => false
  | some a => decide (a ≤ t)

/-- `at_ > t` for a possibly-infinite time (`INFINITY > t` is true); the
guard of `net_queue_run`. -/
def tgtB (at_ : Option ℚ) (t : ℚ) : Bool :=
  match at_ with
  | none => true
  | some a => decide (t < a)

/-- The scheduler's assertion `at >= now` for a possibly-infinite time
(`INFINITY >= now` is true). -/
def assertGe (now : ℚ) (at_ : Option ℚ) : Bool :=
  match at_ with
  | none => true
  | some a => decide (now ≤ a)

/-- Minimum of two possibly-infinite times (`none` = `INFINITY`). -/
def tmin (a b : Option ℚ) : Option ℚ :=
  match a, b with
  | none, b => b
  | some a, none => some a
  | some a, some b => some (min a b)

/-- `quicly_address_t`: address family, IPv4 address and port, used only as
an opaque identity. -/
structure quicly_address where
  family : ℕ
  ip : ℕ
  port : ℕ
deriving DecidableEq

/-- `struct net_packet`: one datagram in flight.  The `next` link of the C
struct is represented by the position in the containing `List`. -/
structure net_packet where
  dest : quicly_address
  src : quicly_address
  /-- when the packet entered the queue currently holding it -/
  enter_at : ℚ
  size : ℕ
  bytes : List ℕ
deriving DecidableEq

/-- `net_packet_create`: a fresh packet carries the creation-time clock as
its enter time and its byte count as its size. -/
def net_packet_create (now : ℚ) (dest src : quicly_address) (vec : List ℕ) :
    net_packet :=
  { dest := dest, src := src, enter_at := now, size := vec.length, bytes := vec }

/-- `struct net_queue` (minus the vtable and the downstream pointer, which
are wiring): FIFO packet list, link-free cursor, configuration, byte
accounting. -/
structure net_queue where
  queue : List net_packet
  next_emit_at : ℚ
  prop_delay : ℚ
  bytes_per_sec : ℚ
  size : ℕ
  capacity : ℕ
deriving DecidableEq

/-- The observable `printf` events of the queue. -/
inductive LogEvent where
  | drop : ℚ → ℕ → LogEvent
  | enqueue : ℚ → ℕ → LogEvent
deriving DecidableEq

/-- `net_queue_forward`: drop the packet if it would overflow the byte
capacity, otherwise stamp its enter time with the clock and append it at
the tail, growing `size`.  Returns the new queue state and the log line. -/
def net_queue_forward (now : ℚ) (q : net_queue) (p : net_packet) :
    net_queue × LogEvent :=
  if q.size + p.size > q.capacity then
    (q, LogEvent.drop now q.size)
  else
    ({ q with
        queue := q.queue ++ [{ p with enter_at := now }],
        size := q.size + p.size },
     LogEvent.enqueue now q.size)

/-- `net_queue_next_run_at`: `INFINITY` when empty, otherwise the head's
enter time plus the propagation delay, raised to the link-free cursor. -/
def net_queue_next_run_at (q : net_queue) : Option ℚ :=
  match q.queue with
  | [] => none
  | p :: _ =>
    let emit_at := p.enter_at + q.prop_delay
    some (if emit_at < q.next_emit_at then q.next_emit_at else emit_at)

/-- `net_queue_run`: no-op unless due; when due, detach the head packet,
shrink `size`, advance the link-free cursor by the serialization time and
forward the packet downstream (returned as the second component). -/
def net_queue_run (now : ℚ) (q : net_queue) : net_queue × Option net_packet :=
  if tgtB (net_queue_next_run_at q) now then
    (q, none)
  else
    match q.queue with
    | [] => (q, none)
    | p :: rest =>
      ({ q with
          queue := rest,
          size := q.size - p.size,
          next_emit_at := now + (p.size : ℚ) / q.bytes_per_sec },
       some p)

/-- `net_queue_init`: empty queue, zero cursor, byte capacity computed as
`(size_t)(bytes_per_sec * capacity_in_sec)` (truncating cast). -/
def net_queue_init (prop_delay bytes_per_sec capacity_in_sec : ℚ) : net_queue :=
  { queue := []
    next_emit_at := 0
    prop_delay := prop_delay
    bytes_per_sec := bytes_per_sec
    size := 0
    capacity := (Int.floor (bytes_per_sec * capacity_in_sec)).toNat }

/-- Model of the external protocol-engine connection: the only observable
the simulator's scheduling path reads is `quicly_get_first_timeout`, an
integer number of milliseconds (`int64_t`). -/
structure quicly_conn where
  first_timeout : ℤ
deriving DecidableEq

/-- `quicly_get_first_timeout` (external engine): the connection's reported
wake-up time in integer milliseconds. -/
def quicly_get_first_timeout (c : quicly_conn) : ℤ := c.first_timeout

/-- `struct net_endpoint` (minus vtable and egress wiring): the optional
connection; `accept_ctx` records whether the endpoint acts as a listener. -/
structure net_endpoint where
  addr : quicly_address
  quic : Option quicly_conn
  accept_ctx : Bool
deriving DecidableEq

/-- `net_endpoint_next_run_at`: `INFINITY` without a connection, otherwise
the engine timeout converted to simulator units (`/ 1000`) plus the 0.1 ms
epsilon, floored at the current clock. -/
def net_endpoint_next_run_at (now : ℚ) (e : net_endpoint) : Option ℚ :=
  match e.quic with
  | none => none
  | some c =>
    let at_ := (quicly_get_first_timeout c : ℚ) / 1000 + 1 / 10000
    some (if at_ < now then now else at_)

/-- `struct net_node` as seen by the scheduler: the two operations
`run_nodes` invokes, reading and mutating the global simulation state `σ`
(`forward_` is invoked only by peer nodes, not by the scheduler). -/
structure net_node (σ : Type) where
  next_run_at : σ → Option ℚ
  run : ℚ → σ → σ

/-- The global mutable state of the simulation: the clock `now` plus the
node-owned state. -/
structure SimState (σ : Type) where
  now : ℚ
  state : σ
deriving DecidableEq

/-- The first loop of `run_nodes`: assert `at >= now` for each node in
order (`none` = assertion failure aborts) while accumulating the minimum
next-run time (`some none` = all infinite). -/
def scanMin (now : ℚ) : List (net_node σ) → σ → Option (Option ℚ)
  | [], _ => some none
  | n :: rest, st =>
    let at_ := n.next_run_at st
    if assertGe now at_ then
      (scanMin now rest st).map (fun m => tmin at_ m)
    else
      none

/-- The plain minimum of the nodes' next-run times (`none` = `INFINITY`). -/
def tminOf : List (net_node σ) → σ → Option ℚ
  | [], _ => none
  | n :: rest, st => tmin (n.next_run_at st) (tminOf rest st)

/-- The second loop of `run_nodes`: walk the nodes in registration order;
re-query each node's next-run time against the current (already mutated)
state and run the node when it is `≤ now`.  Also returns, per node, whether
its `run` was invoked. -/
def runDue (now : ℚ) : List (net_node σ) → σ → σ × List Bool
  | [], st => (st, [])
  | n :: rest, st =>
    if tleB (n.next_run_at st) now then
      let r := runDue now rest (n.run now st)
      (r.1, true :: r.2)
    else
      let r := runDue now rest st
      (r.1, false :: r.2)

/-- `run_nodes`: one scheduling step.  `none` models the `assert` firing;
when the minimum next-run time is infinite the step leaves the state
untouched; otherwise the clock jumps to that minimum and every due node is
run. -/
def run_nodes (nodes : List (net_node σ)) (s : SimState σ) :
    Option (SimState σ) :=
  match scanMin s.now nodes s.state with
  | none => none
  | some none => some s
  | some (some t) => some ⟨t, (runDue t nodes s.state).1⟩

/-- `k` consecutive scheduling steps (the harness loop). -/
def iterRun (nodes : List (net_node σ)) : ℕ → SimState σ → Option (SimState σ)
  | 0, s => some s
  | k + 1, s => (run_nodes nodes s).bind (iterRun nodes k)

/-- A sequence of `net_queue_forward` calls, each at its own clock value. -/
def applyEnqueues : List (ℚ × net_packet) → net_queue → net_queue
  | [], q => q
  | x :: ops, q => applyEnqueues ops (net_queue_forward x.1 q x.2).1

/-- One externally triggered operation on a bottleneck queue: either a
`net_queue_forward` of a packet or a `net_queue_run`, at a given clock. -/
inductive QueueOp where
  | enq : ℚ → net_packet → QueueOp
  | run : ℚ → QueueOp
deriving DecidableEq

/-- Execute a sequence of queue operations, collecting the packets the
queue forwarded downstream (second component, in emission order) and the
packets it accepted at enqueue time (third component, stamped, in
acceptance order — an enqueue is accepted exactly when it logs
`enqueue` rather than `drop`). -/
def execTrace : List QueueOp → net_queue → net_queue × List net_packet × List net_packet
  | [], q => (q, [], [])
  | QueueOp.enq now p :: ops, q =>
    let f := net_queue_forward now q p
    let r := execTrace ops f.1
    (r.1, r.2.1,
      (match f.2 with
       | LogEvent.enqueue _ _ => [{ p with enter_at := now }]
       | LogEvent.drop _ _ => []) ++ r.2.2)
  | QueueOp.run now :: ops, q =>
    let e := net_queue_run now q
    let r := execTrace ops e.1
    (r.1, e.2.toList ++ r.2.1, r.2.2)

/-- The property the scheduler asserts of every node: the queue's reported
next-run time, when finite, is at or after the clock. -/
def queueDueInv (now : ℚ) (q : net_queue) : Prop :=
  ∀ t, net_queue_next_run_at q = some t → now ≤ t

/-- Concrete address for witness scenarios. -/
def addrW : quicly_address := ⟨2, 100, 54321⟩

/-- Concrete packet of a given size for witness scenarios. -/
def pW (sz : ℕ) : net_packet := ⟨addrW, addrW, 0, sz, []⟩

/-- Concrete queue holding two packets for witness scenarios: zero delay,
bandwidth 1 byte per unit, sizes 2 and 3 queued. -/
def qW : net_queue :=
  { queue := [pW 2, { pW 3 with enter_at := 1 }], next_emit_at := 0,
    prop_delay := 0, bytes_per_sec := 1, size := 5, capacity := 100 }

/-- A node that always reports next-run time 5 and sets the shared flag
when run (drives the re-query scenarios of the scheduler). -/
def flagSetNode : net_node Bool := ⟨fun _ => some 5, fun _ _ => true⟩

/-- A node whose next-run time drops from 7 to 5 once the shared flag is
set; its own run leaves the flag unchanged. -/
def flagWatchNode : net_node Bool :=
  ⟨fun f => if f then some 5 else some 7, fun _ f => f⟩

end Simulator

namespace Simulator

lemma assertGe_some {now a : ℚ} (h : assertGe now (some a) = true) : now ≤ a := by
  simpa [assertGe] using h

lemma tleB_iff {at_ : Option ℚ} {t : ℚ} :
    tleB at_ t = true ↔ ∃ a, at_ = some a ∧ a ≤ t := by
  cases at_ <;> simp [tleB]

lemma tgtB_eq_false {at_ : Option ℚ} {t : ℚ} :
    tgtB at_ t = false ↔ ∃ a, at_ = some a ∧ a ≤ t := by
  cases at_ <;> simp [tgtB]

/-- A successful assertion pass of the first `run_nodes` loop leaves the
accumulated value equal to the plain minimum of the next-run times. -/
lemma scanMin_eq_tminOf {σ : Type} (now : ℚ) :
    ∀ (nodes : List (net_node σ)) (st : σ) (v : Option ℚ),
      scanMin now nodes st = some v → v = tminOf nodes st := by
  intro nodes
  induction nodes with
  | nil =>
    intro st v h
    simp only [scanMin, Option.some.injEq] at h
    simp [tminOf, ← h]
  | cons n rest ih =>
    intro st v h
    cases hcond : assertGe now (n.next_run_at st) with
    | false => simp [scanMin, hcond] at h
    | true =>
      simp only [scanMin, hcond, if_true] at h
      cases hm : scanMin now rest st with
      | none => rw [hm] at h; simp at h
      | some m =>
        rw [hm] at h
        simp only [Option.map_some', Option.some.injEq] at h
        simp [tminOf, ← h, ih st m hm]

/-- Any finite minimum surviving the assertion loop is at or after `now`. -/
lemma scanMin_finite_ge {σ : Type} (now : ℚ) :
    ∀ (nodes : List (net_node σ)) (st : σ) (t : ℚ),
      scanMin now nodes st = some (some t) → now ≤ t := by
  intro nodes
  induction nodes with
  | nil =>
    intro st t h
    simp [scanMin] at h
  | cons n rest ih =>
    intro st t h
    cases hcond : assertGe now (n.next_run_at st) with
    | false => simp [scanMin, hcond] at h
    | true =>
      simp only [scanMin, hcond, if_true] at h
      cases hm : scanMin now rest st with
      | none => rw [hm] at h; simp at h
      | some m =>
        rw [hm] at h
        simp only [Option.map_some', Option.some.injEq] at h
        cases hat : n.next_run_at st with
        | none =>
          rw [hat] at h
          simp only [tmin] at h
          exact ih st t (by rw [hm, h])
        | some a =>
          have hna : now ≤ a := by
            rw [hat] at hcond
            exact assertGe_some hcond
          rw [hat] at h
          cases m with
          | none =>
            simp only [tmin, Option.some.injEq] at h
            exact h ▸ hna
          | some b =>
            have hnb : now ≤ b := ih st b hm
            simp only [tmin, Option.some.injEq] at h
            rw [← h]
            exact le_min hna hnb

/-- Unfold one scheduling step by the value the assertion loop produced. -/
lemma run_nodes_eq_of_scanMin {σ : Type} {nodes : List (net_node σ)}
    {s : SimState σ} {v : Option ℚ}
    (h : scanMin s.now nodes s.state = some v) :
    run_nodes nodes s =
      some (match v with
            | none => s
            | some t => ⟨t, (runDue t nodes s.state).1⟩) := by
  cases v <;> simp [run_nodes, h]

/-- A scheduling step that does not trip the assertion never moves the
clock backwards. -/
lemma run_nodes_now_le {σ : Type} {nodes : List (net_node σ)}
    {s s1 : SimState σ} (h : run_nodes nodes s = some s1) :
    s.now ≤ s1.now := by
  cases hsc : scanMin s.now nodes s.state with
  | none => simp [run_nodes, hsc] at h
  | some v =>
    cases v with
    | none =>
      simp only [run_nodes, hsc, Option.some.injEq] at h
      rw [← h]
    | some t =>
      simp only [run_nodes, hsc, Option.some.injEq] at h
      rw [← h]
      exact scanMin_finite_ge s.now nodes s.state t hsc

/-- Clock monotonicity across any number of scheduling steps. -/
lemma iterRun_now_le {σ : Type} (nodes : List (net_node σ)) :
    ∀ (k : ℕ) (s s2 : SimState σ),
      iterRun nodes k s = some s2 → s.now ≤ s2.now := by
  intro k
  induction k with
  | zero =>
    intro s s2 h
    simp only [iterRun, Option.some.injEq] at h
    rw [← h]
  | succ k ih =>
    intro s s2 h
    simp only [iterRun] at h
    cases hr : run_nodes nodes s with
    | none => rw [hr] at h; simp at h
    | some mid =>
      rw [hr] at h
      simp only [Option.some_bind] at h
      exact le_trans (run_nodes_now_le hr) (ih mid s2 h)

/-- The due-running loop assigns one flag per node. -/
lemma runDue_length {σ : Type} (now : ℚ) :
    ∀ (nodes : List (net_node σ)) (st : σ),
      (runDue now nodes st).2.length = nodes.length := by
  intro nodes
  induction nodes with
  | nil => intro st; simp [runDue]
  | cons n rest ih =>
    intro st
    cases hc : tleB (n.next_run_at st) now <;>
      simp [runDue, hc, ih]

/-- The flag of the node at position `pre.length` records exactly whether
its next-run time — re-queried against the state mutated by the earlier
nodes of the step — was `≤ now`. -/
lemma runDue_flag_at {σ : Type} (now : ℚ) :
    ∀ (pre : List (net_node σ)) (n : net_node σ) (post : List (net_node σ))
      (st : σ),
      (runDue now (pre ++ n :: post) st).2[pre.length]? =
        some (tleB (n.next_run_at (runDue now pre st).1) now) := by
  intro pre
  induction pre with
  | nil =>
    intro n post st
    cases hc : tleB (n.next_run_at st) now <;>
      simp [runDue, hc]
  | cons m pre ih =>
    intro n post st
    cases hc : tleB (m.next_run_at st) now <;>
      simp [runDue, hc, ih]

/-- The state produced by the due-running loop threads left to right:
running a prefix first gives the state the remaining nodes observe. -/
lemma runDue_state_append {σ : Type} (now : ℚ) :
    ∀ (l1 l2 : List (net_node σ)) (st : σ),
      (runDue now (l1 ++ l2) st).1 = (runDue now l2 (runDue now l1 st).1).1 := by
  intro l1
  induction l1 with
  | nil => intro l2 st; simp [runDue]
  | cons m l1 ih =>
    intro l2 st
    cases hc : tleB (m.next_run_at st) now <;>
      simp [runDue, hc, ih]

lemma net_queue_forward_drop (now : ℚ) {q : net_queue} {p : net_packet}
    (h : q.size + p.size > q.capacity) :
    net_queue_forward now q p = (q, LogEvent.drop now q.size) := by
  simp [net_queue_forward, h]

lemma net_queue_forward_accept (now : ℚ) {q : net_queue} {p : net_packet}
    (h : ¬ q.size + p.size > q.capacity) :
    net_queue_forward now q p =
      ({ q with
          queue := q.queue ++ [{ p with enter_at := now }],
          size := q.size + p.size },
       LogEvent.enqueue now q.size) := by
  simp [net_queue_forward, h]

lemma net_queue_forward_fields (now : ℚ) (q : net_queue) (p : net_packet) :
    (net_queue_forward now q p).1.capacity = q.capacity ∧
    (net_queue_forward now q p).1.next_emit_at = q.next_emit_at ∧
    (net_queue_forward now q p).1.bytes_per_sec = q.bytes_per_sec ∧
    (net_queue_forward now q p).1.prop_delay = q.prop_delay := by
  by_cases h : q.size + p.size > q.capacity <;>
    simp [net_queue_forward, h]

lemma net_queue_forward_size_le {q : net_queue} {p : net_packet} (now : ℚ)
    (h : q.size ≤ q.capacity) :
    (net_queue_forward now q p).1.size ≤ q.capacity := by
  by_cases hc : q.size + p.size > q.capacity
  · simpa [net_queue_forward, hc] using h
  · simp only [net_queue_forward, hc, if_false]
    omega

lemma applyEnqueues_size_le :
    ∀ (ops : List (ℚ × net_packet)) (q : net_queue), q.size ≤ q.capacity →
      (applyEnqueues ops q).size ≤ (applyEnqueues ops q).capacity := by
  intro ops
  induction ops with
  | nil => intro q h; simpa [applyEnqueues] using h
  | cons x ops ih =>
    intro q h
    have hcap := (net_queue_forward_fields x.1 q x.2).1
    have hsz := net_queue_forward_size_le (p := x.2) x.1 h
    exact ih _ (by rw [hcap]; exact hsz)

lemma applyEnqueues_capacity :
    ∀ (ops : List (ℚ × net_packet)) (q : net_queue),
      (applyEnqueues ops q).capacity = q.capacity := by
  intro ops
  induction ops with
  | nil => intro q; simp [applyEnqueues]
  | cons x ops ih =>
    intro q
    rw [applyEnqueues, ih, (net_queue_forward_fields x.1 q x.2).1]

lemma net_queue_next_run_at_cons {q : net_queue} {p : net_packet}
    {rest : List net_packet} (h : q.queue = p :: rest) :
    net_queue_next_run_at q =
      some (max (p.enter_at + q.prop_delay) q.next_emit_at) := by
  by_cases hlt : p.enter_at + q.prop_delay < q.next_emit_at
  · rw [net_queue_next_run_at, h]
    simp [hlt, max_eq_right (le_of_lt hlt)]
  · rw [net_queue_next_run_at, h]
    simp [hlt, max_eq_left (not_lt.mp hlt)]

/-- A `net_queue_run` that emits a packet: the packet is the head, the
queue was due (both the head's delay bound and the link-free cursor are at
or before the clock), and the resulting state drops the head, shrinks the
byte count and advances the cursor by the serialization time. -/
lemma net_queue_run_emit {now : ℚ} {q : net_queue} {p : net_packet}
    (h : (net_queue_run now q).2 = some p) :
    q.queue = p :: (net_queue_run now q).1.queue ∧
    p.enter_at + q.prop_delay ≤ now ∧
    q.next_emit_at ≤ now ∧
    (net_queue_run now q).1.next_emit_at = now + (p.size : ℚ) / q.bytes_per_sec ∧
    (net_queue_run now q).1.size = q.size - p.size ∧
    (net_queue_run now q).1.bytes_per_sec = q.bytes_per_sec ∧
    (net_queue_run now q).1.prop_delay = q.prop_delay := by
  cases hg : tgtB (net_queue_next_run_at q) now with
  | true => simp [net_queue_run, hg] at h
  | false =>
    cases hq : q.queue with
    | nil => simp [net_queue_run, hg, hq] at h
    | cons hd tl =>
      have hdp : hd = p := by simpa [net_queue_run, hg, hq] using h
      subst hdp
      have hmax : max (hd.enter_at + q.prop_delay) q.next_emit_at ≤ now := by
        rcases tgtB_eq_false.mp hg with ⟨a, ha, hle⟩
        rw [net_queue_next_run_at_cons hq] at ha
        exact (Option.some.injEq _ _ ▸ ha) ▸ hle
      refine ⟨?_, le_trans (le_max_left _ _) hmax,
        le_trans (le_max_right _ _) hmax, ?_, ?_, ?_, ?_⟩ <;>
        simp [net_queue_run, hg, hq]

/-- A `net_queue_run` that emits nothing leaves the queue untouched. -/
lemma net_queue_run_noop {now : ℚ} {q : net_queue}
    (h : (net_queue_run now q).2 = none) :
    (net_queue_run now q).1 = q := by
  cases hg : tgtB (net_queue_next_run_at q) now with
  | true => simp [net_queue_run, hg]
  | false =>
    cases hq : q.queue with
    | nil => simp [net_queue_run, hg, hq]
    | cons hd tl => simp [net_queue_run, hg, hq] at h

/-- FIFO invariant of a queue trace: the packets emitted so far followed
by the packets still queued are exactly the initial contents followed by
the accepted packets, in order. -/
lemma execTrace_fifo :
    ∀ (ops : List QueueOp) (q : net_queue),
      (execTrace ops q).2.1 ++ (execTrace ops q).1.queue =
        q.queue ++ (execTrace ops q).2.2 := by
  intro ops
  induction ops with
  | nil => intro q; simp [execTrace]
  | cons op ops ih =>
    intro q
    cases op with
    | enq now p =>
      by_cases hc : q.size + p.size > q.capacity
      · have hf := net_queue_forward_drop now hc
        simp only [execTrace, hf]
        simpa using ih q
      · have hf := net_queue_forward_accept now hc
        simp only [execTrace, hf]
        have := ih ({ q with
          queue := q.queue ++ [{ p with enter_at := now }],
          size := q.size + p.size })
        simpa [List.append_assoc] using this
    | run now =>
      cases he : (net_queue_run now q).2 with
      | none =>
        simp only [execTrace, he, net_queue_run_noop he, Option.toList_none,
          List.nil_append]
        exact ih q
      | some p =>
        have hh := (net_queue_run_emit he).1
        simp only [execTrace, he, Option.toList_some, List.nil_append,
          List.cons_append]
        rw [ih ((net_queue_run now q).1), hh]
        simp

/-- A stretch of a trace that emits nothing leaves the link-free cursor
and the bandwidth untouched (enqueues never move them, and a
`net_queue_run` that emits nothing changes nothing). -/
lemma execTrace_no_emit :
    ∀ (ops : List QueueOp) (q : net_queue), (execTrace ops q).2.1 = [] →
      (execTrace ops q).1.next_emit_at = q.next_emit_at ∧
      (execTrace ops q).1.bytes_per_sec = q.bytes_per_sec := by
  intro ops
  induction ops with
  | nil => intro q _; simp [execTrace]
  | cons op ops ih =>
    intro q hnone
    cases op with
    | enq now p =>
      simp only [execTrace] at hnone ⊢
      have hf := net_queue_forward_fields now q p
      rcases ih _ hnone with ⟨h1, h2⟩
      exact ⟨h1.trans hf.2.1, h2.trans hf.2.2.1⟩
    | run now =>
      cases he : (net_queue_run now q).2 with
      | none =>
        simp only [execTrace, he, Option.toList_none, List.nil_append]
          at hnone ⊢
        rw [net_queue_run_noop he] at hnone ⊢
        exact ih q hnone
      | some p =>
        simp [execTrace, he] at hnone

/-- With byte capacity 0 every positive-size packet is dropped, so a run
of such enqueues keeps the queue empty and the byte total zero. -/
lemma applyEnqueues_capacity_zero :
    ∀ (ops : List (ℚ × net_packet)) (q : net_queue),
      q.capacity = 0 → q.size = 0 → q.queue = [] →
      (∀ x ∈ ops, 0 < x.2.size) →
      applyEnqueues ops q = q := by
  intro ops
  induction ops with
  | nil => intro q _ _ _ _; rfl
  | cons x ops ih =>
    intro q hcap hsz hq hpos
    have hx : 0 < x.2.size := hpos x (List.mem_cons_self x ops)
    have hdrop : q.size + x.2.size > q.capacity := by omega
    rw [applyEnqueues, net_queue_forward_drop x.1 hdrop]
    exact ih q hcap hsz hq (fun y hy => hpos y (List.mem_cons_of_mem x hy))

/-- C1: a scheduling step (`run_nodes`) that passes the per-node
assertion computes the minimum `t_min` of all nodes' next-run times; if
`t_min` is infinite the step terminates leaving the state — in particular
the clock — unchanged; otherwise the clock is set to exactly `t_min`.
Consequently the global clock is monotonically non-decreasing across any
run of steps, and whenever it moves it equals that minimum. -/
theorem claim_C1 {σ : Type} (nodes : List (net_node σ)) (s : SimState σ) :
    (∀ s1, run_nodes nodes s = some s1 →
      ((tminOf nodes s.state = none → s1 = s) ∧
       (∀ t, tminOf nodes s.state = some t → s1.now = t) ∧
       s.now ≤ s1.now)) ∧
    (∀ (k : ℕ) (s2 : SimState σ), iterRun nodes k s = some s2 → s.now ≤ s2.now) := by
  refine ⟨?_, fun k s2 h => iterRun_now_le nodes k s s2 h⟩
  intro s1 h
  cases hsc : scanMin s.now nodes s.state with
  | none => simp [run_nodes, hsc] at h
  | some v =>
    have hv := scanMin_eq_tminOf s.now nodes s.state v hsc
    cases v with
    | none =>
      have hs1 : s1 = s := by
        simp only [run_nodes, hsc, Option.some.injEq] at h
        exact h.symm
      refine ⟨fun _ => hs1, fun t ht => ?_, le_of_eq (by rw [hs1])⟩
      rw [← hv] at ht
      exact absurd ht (by simp)
    | some t0 =>
      have hs1 : s1 = ⟨t0, (runDue t0 nodes s.state).1⟩ := by
        simp only [run_nodes, hsc, Option.some.injEq] at h
        exact h.symm
      refine ⟨fun hn => ?_, fun t ht => ?_, run_nodes_now_le h⟩
      · rw [← hv] at hn
        exact absurd hn (by simp)
      · rw [← hv] at ht
        have ht0 : t0 = t := by simpa using ht
        rw [hs1, ← ht0]

/-- C1 witness: two concrete nodes over a `Bool` flag state, starting at
clock 0; the step moves the clock to the minimum 5 and never backwards. -/
theorem claim_C1_witness :
    ((⟨5, true⟩ : SimState Bool)).now = 5 ∧
    (0 : ℚ) ≤ ((⟨5, true⟩ : SimState Bool)).now := by
  have h := (claim_C1 [flagSetNode, flagWatchNode] ⟨0, false⟩).1 ⟨5, true⟩
    (by decide)
  exact ⟨h.2.1 5 (by decide), h.2.2⟩

/-- C2: within a step whose new clock value is `t`, the due-running loop
assigns exactly one run-flag per registered node (so no node is run twice
in a step), walks the nodes in registration order, and the flag of the
node at any position is `true` exactly when that node's next-run time —
queried against the state as mutated by the earlier-registered nodes of
the same step — is `≤ t`; nodes due at the same instant therefore all run
within that step, in registration order. -/
theorem claim_C2 {σ : Type} (nodes : List (net_node σ)) (s : SimState σ)
    (t : ℚ) (h : scanMin s.now nodes s.state = some (some t)) :
    run_nodes nodes s = some ⟨t, (runDue t nodes s.state).1⟩ ∧
    (runDue t nodes s.state).2.length = nodes.length ∧
    (∀ (pre : List (net_node σ)) (n : net_node σ) (post : List (net_node σ)),
      nodes = pre ++ n :: post →
      (runDue t nodes s.state).2[pre.length]? =
        some (tleB (n.next_run_at (runDue t pre s.state).1) t)) := by
  refine ⟨by simp [run_nodes, h], runDue_length t nodes s.state, ?_⟩
  intro pre n post hn
  rw [hn]
  exact runDue_flag_at t pre n post s.state

/-- C2 witness: the two flag nodes at clock 0 with minimum 5; the first
node's flag is recorded at position 0 and the step result matches. -/
theorem claim_C2_witness :
    run_nodes [flagSetNode, flagWatchNode] (⟨0, false⟩ : SimState Bool) =
      some ⟨5, (runDue 5 [flagSetNode, flagWatchNode] false).1⟩ ∧
    (runDue 5 [flagSetNode, flagWatchNode] false).2[0]? =
      some (tleB (flagSetNode.next_run_at
        (runDue 5 ([] : List (net_node Bool)) false).1) 5) := by
  have h := claim_C2 [flagSetNode, flagWatchNode] ⟨0, false⟩ 5 (by decide)
  exact ⟨h.1, h.2.2 [] flagSetNode [flagWatchNode] rfl⟩

/-- C9: the due check re-queries each node against the state already
mutated by the earlier-registered nodes of the same step.  Concretely:
the watch node initially reports 7, strictly above the step minimum 5,
yet when it is registered after the setter node (whose run makes it due)
it runs within the same step (flags `[true, true]`); registered before
the setter it is skipped that step (flags `[false, true]`) even though by
the end of the step it is due (sixth conjunct), and it then runs in the
subsequent scheduling step (last two conjuncts). -/
theorem claim_C9 :
    run_nodes [flagSetNode, flagWatchNode] (⟨0, false⟩ : SimState Bool) =
      some ⟨5, true⟩ ∧
    tminOf [flagSetNode, flagWatchNode] false = some 5 ∧
    flagWatchNode.next_run_at false = some 7 ∧
    (runDue 5 [flagSetNode, flagWatchNode] false).2 = [true, true] ∧
    (runDue 5 [flagWatchNode, flagSetNode] false).2 = [false, true] ∧
    tleB (flagWatchNode.next_run_at
      (runDue 5 [flagWatchNode, flagSetNode] false).1) 5 = true ∧
    run_nodes [flagWatchNode, flagSetNode] (⟨0, false⟩ : SimState Bool) =
      some ⟨5, true⟩ ∧
    (runDue 5 [flagWatchNode, flagSetNode] true).2 = [true, true] := by
  decide

/-- C3: `net_queue_next_run_at` returns the infinite sentinel exactly
when the queue is empty, and otherwise
`max (head.enter_at + prop_delay) next_emit_at`, where the per-queue
link-free cursor `next_emit_at` is set by every emitting `net_queue_run`
to `emit_time + packet.size / bytes_per_sec`. -/
theorem claim_C3 (q : net_queue) (now : ℚ) :
    (net_queue_next_run_at q = none ↔ q.queue = []) ∧
    (∀ (p : net_packet) (rest : List net_packet), q.queue = p :: rest →
      net_queue_next_run_at q =
        some (max (p.enter_at + q.prop_delay) q.next_emit_at)) ∧
    (∀ p : net_packet, (net_queue_run now q).2 = some p →
      (net_queue_run now q).1.next_emit_at =
        now + (p.size : ℚ) / q.bytes_per_sec) := by
  refine ⟨?_, fun p rest h => net_queue_next_run_at_cons h,
    fun p h => (net_queue_run_emit h).2.2.2.1⟩
  cases hq : q.queue with
  | nil => simp [net_queue_next_run_at, hq]
  | cons p rest => simp [net_queue_next_run_at, hq]

/-- C3 witness: on the concrete two-packet queue, the next-run time is
the head formula and an emission at clock 5 sets the cursor to
`5 + 2 / 1`. -/
theorem claim_C3_witness :
    net_queue_next_run_at qW =
      some (max ((pW 2).enter_at + qW.prop_delay) qW.next_emit_at) ∧
    (net_queue_run 5 qW).1.next_emit_at =
      5 + ((pW 2).size : ℚ) / qW.bytes_per_sec := by
  refine ⟨(claim_C3 qW 5).2.1 (pW 2) [{ pW 3 with enter_at := 1 }] rfl,
    (claim_C3 qW 5).2.2 (pW 2) ?_⟩
  norm_num [net_queue_run, net_queue_next_run_at, qW, pW, tgtB]

/-- C4: an enqueue that would push the byte total above the capacity
drops the packet, leaving the queue — contents, byte total and link-free
cursor — unchanged; otherwise the packet is stamped with the clock,
appended at the tail, and the byte total grows by exactly its size.
Hence from a freshly constructed queue, any sequence of enqueues keeps
the byte total within the configured capacity. -/
theorem claim_C4 (q : net_queue) (p : net_packet) (now : ℚ) :
    (q.size + p.size > q.capacity →
      net_queue_forward now q p = (q, LogEvent.drop now q.size)) ∧
    (¬ q.size + p.size > q.capacity →
      net_queue_forward now q p =
        ({ q with queue := q.queue ++ [{ p with enter_at := now }],
                  size := q.size + p.size },
         LogEvent.enqueue now q.size)) ∧
    (∀ (ops : List (ℚ × net_packet)) (D bw cap : ℚ),
      (applyEnqueues ops (net_queue_init D bw cap)).size ≤
        (net_queue_init D bw cap).capacity) := by
  refine ⟨fun h => net_queue_forward_drop now h,
    fun h => net_queue_forward_accept now h, ?_⟩
  intro ops D bw cap
  have h := applyEnqueues_size_le ops (net_queue_init D bw cap)
    (by simp [net_queue_init])
  rwa [applyEnqueues_capacity] at h

/-- C4 witness: on the concrete queue a size-2 packet is accepted
(appended, byte total 5 + 2) and a size-200 packet is dropped. -/
theorem claim_C4_witness :
    net_queue_forward 3 qW (pW 2) =
      ({ qW with queue := qW.queue ++ [{ pW 2 with enter_at := 3 }],
                 size := qW.size + (pW 2).size },
       LogEvent.enqueue 3 qW.size) ∧
    net_queue_forward 3 qW (pW 200) = (qW, LogEvent.drop 3 qW.size) := by
  exact ⟨(claim_C4 qW (pW 2) 3).2.1 (by decide),
    (claim_C4 qW (pW 200) 3).1 (by decide)⟩

/-- C5: from a freshly constructed queue, across any sequence of enqueue
and run operations the packets accepted at enqueue time equal — in
order — the packets forwarded downstream followed by the packets still
queued: emissions happen in exact acceptance order and the front of the
internal sequence is always the oldest accepted packet still present. -/
theorem claim_C5 (ops : List QueueOp) (D bw cap : ℚ) :
    (execTrace ops (net_queue_init D bw cap)).2.2 =
      (execTrace ops (net_queue_init D bw cap)).2.1 ++
        (execTrace ops (net_queue_init D bw cap)).1.queue := by
  have h := execTrace_fifo ops (net_queue_init D bw cap)
  rw [show (net_queue_init D bw cap).queue = [] from rfl,
    List.nil_append] at h
  exact h.symm

/-- C6: an emitting `net_queue_run` at clock `t1` happens no earlier than
`max (enter_at + prop_delay) next_emit_at` of the emitted packet (both
bounds are `≤ t1`); and after it, any next emission — with only
non-emitting activity in between — happens at a clock at least
`t1 + size / bytes_per_sec` later than `t1`, the serialization spacing of
the earlier packet. -/
theorem claim_C6 (q : net_queue) (t1 : ℚ) (p1 : net_packet)
    (h1 : (net_queue_run t1 q).2 = some p1) :
    (p1.enter_at + q.prop_delay ≤ t1 ∧ q.next_emit_at ≤ t1) ∧
    (∀ (l : List QueueOp) (t2 : ℚ) (p2 : net_packet),
      (execTrace l (net_queue_run t1 q).1).2.1 = [] →
      (net_queue_run t2 (execTrace l (net_queue_run t1 q).1).1).2 = some p2 →
      t1 + (p1.size : ℚ) / q.bytes_per_sec ≤ t2) := by
  obtain ⟨hq, hdelay, hcur, hemit, -, -, -⟩ := net_queue_run_emit h1
  refine ⟨⟨hdelay, hcur⟩, ?_⟩
  intro l t2 p2 hno h2
  obtain ⟨hpres, -⟩ := execTrace_no_emit l _ hno
  have h2c := (net_queue_run_emit h2).2.2.1
  rw [hpres, hemit] at h2c
  exact h2c

/-- C6 witness: the concrete queue emits its size-2 head at clock 5; the
next emission is possible at clock 7 = 5 + 2/1 and indeed happens there. -/
theorem claim_C6_witness :
    (5 : ℚ) + ((pW 2).size : ℚ) / qW.bytes_per_sec ≤ 7 := by
  refine (claim_C6 qW 5 (pW 2) ?_).2 [] 7 { pW 3 with enter_at := 1 } rfl ?_
  · norm_num [net_queue_run, net_queue_next_run_at, qW, pW, tgtB]
  · norm_num [execTrace, net_queue_run, net_queue_next_run_at, qW, pW, tgtB]

/-- C7: `net_endpoint_next_run_at` is the infinite sentinel when the
endpoint holds no connection; otherwise it is the engine-reported integer
millisecond timeout converted to simulator units (`/ 1000`) plus the
fixed epsilon `0.0001` (0.1 ms converted), floored at the current clock —
in particular the returned value is never less than the current clock. -/
theorem claim_C7 (e : net_endpoint) (now : ℚ) :
    (e.quic = none → net_endpoint_next_run_at now e = none) ∧
    (∀ c : quicly_conn, e.quic = some c →
      net_endpoint_next_run_at now e =
        some (max now
          ((quicly_get_first_timeout c : ℚ) / 1000 + 1 / 10000))) ∧
    (∀ t : ℚ, net_endpoint_next_run_at now e = some t → now ≤ t) := by
  refine ⟨fun h => by simp [net_endpoint_next_run_at, h],
    fun c h => ?_, fun t ht => ?_⟩
  · simp only [net_endpoint_next_run_at, h, Option.some.injEq]
    split
    case isTrue hlt => exact (max_eq_left (le_of_lt hlt)).symm
    case isFalse hlt => exact (max_eq_right (not_lt.mp hlt)).symm
  · cases hq : e.quic with
    | none => simp [net_endpoint_next_run_at, hq] at ht
    | some c =>
      simp only [net_endpoint_next_run_at, hq, Option.some.injEq] at ht
      by_cases hlt : (quicly_get_first_timeout c : ℚ) / 1000 + 1 / 10000 < now
      · rw [if_pos hlt] at ht
        exact le_of_eq ht
      · rw [if_neg hlt] at ht
        exact ht ▸ not_lt.mp hlt

/-- C7 witness: a connection reporting timeout 1000 ms at clock 3 yields
the clamped value, and a connectionless endpoint yields the sentinel. -/
theorem claim_C7_witness :
    net_endpoint_next_run_at 3 ⟨addrW, some ⟨1000⟩, false⟩ =
      some (max 3 ((quicly_get_first_timeout ⟨1000⟩ : ℚ) / 1000 + 1 / 10000)) ∧
    net_endpoint_next_run_at 3 ⟨addrW, none, false⟩ = none :=
  ⟨(claim_C7 ⟨addrW, some ⟨1000⟩, false⟩ 3).2.1 ⟨1000⟩ rfl,
   (claim_C7 ⟨addrW, none, false⟩ 3).1 rfl⟩

/-- C8 counterexample: a queue constructed with byte capacity 0
(bandwidth 1, depth 0) nonetheless accepts a zero-size packet — the call
logs `enqueue`, appends the packet, and the queue does not remain empty —
refuting "every packet is dropped regardless of its size". -/
theorem claim_C8_counterexample :
    (net_queue_init 1 1 0).capacity = 0 ∧
    (net_queue_forward 5 (net_queue_init 1 1 0) (pW 0)).2 =
      LogEvent.enqueue 5 0 ∧
    (net_queue_forward 5 (net_queue_init 1 1 0) (pW 0)).1.queue =
      [{ pW 0 with enter_at := 5 }] := by
  norm_num [net_queue_init, net_queue_forward, pW]

/-- C8 (amended): for a queue constructed with byte capacity 0, every
packet of positive size passed to enqueue is dropped (logged as a drop
with occupancy 0) and the queue remains empty across any sequence of
positive-size enqueues. -/
theorem claim_C8 (D bw cap : ℚ) (h0 : (net_queue_init D bw cap).capacity = 0)
    (now : ℚ) (p : net_packet) (hp : 0 < p.size)
    (ops : List (ℚ × net_packet)) (hops : ∀ x ∈ ops, 0 < x.2.size) :
    net_queue_forward now (net_queue_init D bw cap) p =
      (net_queue_init D bw cap, LogEvent.drop now 0) ∧
    applyEnqueues ops (net_queue_init D bw cap) = net_queue_init D bw cap := by
  constructor
  · have hdrop : (net_queue_init D bw cap).size + p.size >
        (net_queue_init D bw cap).capacity := by
      rw [h0]
      simpa [net_queue_init] using hp
    rw [net_queue_forward_drop now hdrop]
    rfl
  · exact applyEnqueues_capacity_zero ops _ h0 rfl rfl hops

/-- C8 witness: bandwidth 1, depth 0 gives capacity 0; a size-1 packet is
dropped at clock 5 and a size-2 enqueue leaves the queue as constructed. -/
theorem claim_C8_witness :
    net_queue_forward 5 (net_queue_init 1 1 0) (pW 1) =
      (net_queue_init 1 1 0, LogEvent.drop 5 0) ∧
    applyEnqueues [(0, pW 2)] (net_queue_init 1 1 0) = net_queue_init 1 1 0 := by
  refine claim_C8 1 1 0 (by norm_num [net_queue_init]) 5 (pW 1) (by decide)
    [(0, pW 2)] ?_
  intro x hx
  rw [List.mem_singleton] at hx
  subst hx
  decide

/-- C10: under a non-negative propagation delay and strictly positive
bandwidth, the scheduler-asserted property — the queue's next-run time,
when finite, is at or after the clock (equivalently, `assertGe` holds for
the queue node) — is preserved both by an enqueue at the current clock and
by a run at the current clock: so a queue satisfying it can never trip
the scheduler's per-node assertion. The first conjunct identifies the
invariant with the assertion; the last is the clock-advance case: a step
that moves the clock to any time at or below the queue's next-run time
re-establishes the invariant at the new clock. -/
theorem claim_C10 (q : net_queue) (now : ℚ) (p : net_packet)
    (hD : 0 ≤ q.prop_delay) (hbw : 0 < q.bytes_per_sec)
    (hinv : queueDueInv now q) :
    (queueDueInv now q ↔ assertGe now (net_queue_next_run_at q) = true) ∧
    queueDueInv now (net_queue_forward now q p).1 ∧
    queueDueInv now (net_queue_run now q).1 ∧
    (∀ t now2 : ℚ, net_queue_next_run_at q = some t → now2 ≤ t →
      queueDueInv now2 q) := by
  refine ⟨?_, ?_, ?_, ?_⟩
  · cases h : net_queue_next_run_at q with
    | none => simp [queueDueInv, h, assertGe]
    | some a => simp [queueDueInv, h, assertGe]
  · intro t ht
    by_cases hc : q.size + p.size > q.capacity
    · rw [net_queue_forward_drop now hc] at ht
      exact hinv t ht
    · rw [net_queue_forward_accept now hc] at ht
      cases hq : q.queue with
      | nil =>
        rw [net_queue_next_run_at_cons (by rw [hq]; rfl)] at ht
        have := (Option.some.injEq _ _).mp ht
        rw [← this]
        exact le_trans (le_add_of_nonneg_right hD) (le_max_left _ _)
      | cons p0 rest =>
        rw [net_queue_next_run_at_cons (q := { q with
            queue := q.queue ++ [{ p with enter_at := now }],
            size := q.size + p.size }) (by rw [hq]; rfl)] at ht
        exact hinv t (by rw [net_queue_next_run_at_cons hq]; exact ht)
  · intro t ht
    cases he : (net_queue_run now q).2 with
    | none =>
      rw [net_queue_run_noop he] at ht
      exact hinv t ht
    | some p1 =>
      obtain ⟨-, -, -, hemit, -, -, hdel⟩ := net_queue_run_emit he
      cases hq2 : (net_queue_run now q).1.queue with
      | nil =>
        rw [net_queue_next_run_at, hq2] at ht
        exact absurd ht (by simp)
      | cons p2 rest2 =>
        rw [net_queue_next_run_at_cons hq2] at ht
        have hts := (Option.some.injEq _ _).mp ht
        have hsz : (0 : ℚ) ≤ (p1.size : ℚ) / q.bytes_per_sec :=
          div_nonneg (by positivity) (le_of_lt hbw)
        calc now ≤ now + (p1.size : ℚ) / q.bytes_per_sec := by linarith
          _ = (net_queue_run now q).1.next_emit_at := hemit.symm
          _ ≤ t := by rw [← hts]; exact le_max_right _ _
  · intro t now2 hat hle t2 ht2
    rw [hat] at ht2
    have : t = t2 := by simpa using ht2
    exact this ▸ hle

/-- C10 witness: the concrete two-packet queue (delay 0, bandwidth 1)
satisfies the invariant at clock 0, and keeps it after a run at clock 0. -/
theorem claim_C10_witness :
    queueDueInv 0 (net_queue_run 0 qW).1 := by
  refine (claim_C10 qW 0 (pW 1) (by norm_num [qW]) (by norm_num [qW]) ?_).2.2.1
  intro t ht
  simp only [net_queue_next_run_at, qW, pW] at ht
  norm_num at ht
  rw [← ht]

end Simulator
